import Mathlib

/-!
Shallow embedding of the "Listen Me" application (src/App.tsx,
src/services/gemini, src/services/speech).

The application state tracked by the React component is modelled as a
structure; each event handler or callback becomes a pure state
transformer.  Nondeterministic environment inputs (Date.now, the words
and category delivered by the model, failure of the browser speech
recognizer, the audio clock) are passed as explicit parameters.
-/

/-- Selection method tag of a word log entry (src/types, used in App.tsx). -/
inductive SelectionMethod where
  | voice_confirmed
  | manual_click
  | implicit_split
  deriving DecidableEq, Repr

/-- One log record.  The random id is not modelled; the timestamp is the
Date.now value passed to the handler. -/
structure WordLog where
  word : String
  category : String
  weight : ℚ
  timestamp : ℕ
  selectionMethod : SelectionMethod
  deriving DecidableEq, Repr

/-- The transient suggestion prompt (src/types, used in App.tsx). -/
structure SuggestionContext where
  words : List String
  category : String
  timestamp : ℕ
  deriving DecidableEq, Repr

/-- The React component state of AppContent relevant to the claims:
suggestionCtx, logs, isRecording, error, finalTranscript,
interimTranscript, plus a boolean recording whether speechRef holds a
live SpeechService (speechRef.current is not null). -/
structure AppState where
  suggestionCtx : Option SuggestionContext
  logs : List WordLog
  isRecording : Bool
  error : Option String
  finalTranscript : String
  interimTranscript : String
  speechActive : Bool
  deriving DecidableEq, Repr

/-- JavaScript `x || d` on an optionally-present number: undefined and 0
are falsy. -/
def jsOrQ (x : Option ℚ) (d : ℚ) : ℚ :=
  match x with
  | some v => if v = 0 then d else v
  | none => d

/-- JavaScript `x || d` on an optionally-present string: undefined and
the empty string are falsy. -/
def jsOrStr (x : Option String) (d : String) : String :=
  match x with
  | some v => if v = "" then d else v
  | none => d

/-- addLog from App.tsx: build the record and append it to the logs
list (setLogs(prev => [...prev, newLog])). -/
def addLog (now : ℕ) (word category : String) (weight : ℚ)
    (method : SelectionMethod) (s : AppState) : AppState :=
  { s with logs := s.logs ++ [⟨word, category, weight, now, method⟩] }

/-- The weights array of processImplicitSplit. -/
def implicitWeights : List ℚ := [0.5, 0.4, 0.1]

/-- The expression `weights[idx] || 0.1` of processImplicitSplit. -/
def splitWeight (idx : ℕ) : ℚ := jsOrQ implicitWeights[idx]? 0.1

/-- processImplicitSplit from App.tsx: for each word of the context, in
order, log it with weight `weights[idx] || 0.1`, category of the
context, method implicit_split. -/
def processImplicitSplit (now : ℕ) (ctx : SuggestionContext) (s : AppState) : AppState :=
  ctx.words.enum.foldl
    (fun st p => addLog now p.2 ctx.category (splitWeight p.1) SelectionMethod.implicit_split st) s

/-- The onSuggestions callback passed to GeminiService: if a previous
context is still active, run the implicit split on it, then install the
new context. -/
def onSuggestions (now : ℕ) (words : List String) (category : String)
    (s : AppState) : AppState :=
  let s1 := match s.suggestionCtx with
    | some prev => processImplicitSplit now prev s
    | none => s
  { s1 with suggestionCtx := some ⟨words, category, now⟩ }

/-- The onConfirmedWord callback: category is the JavaScript expression
current?.category || "General"; log the word with weight 1.0 and
method voice_confirmed, clear the context and both transcripts. -/
def onConfirmedWord (now : ℕ) (word : String) (s : AppState) : AppState :=
  let category := jsOrStr (s.suggestionCtx.map SuggestionContext.category) "General"
  let s1 := addLog now word category 1 SelectionMethod.voice_confirmed s
  { s1 with suggestionCtx := none, finalTranscript := "", interimTranscript := "" }

/-- The onRejectWord callback: clear the context. -/
def onRejectWord (s : AppState) : AppState :=
  { s with suggestionCtx := none }

/-- The onTranscriptUpdate callback: append the hosted-model text to the
final transcript (setFinalTranscript(prev => prev + text)). -/
def onTranscriptUpdate (text : String) (s : AppState) : AppState :=
  { s with finalTranscript := s.finalTranscript ++ text }

/-- handleManualSelect from App.tsx: no-op when no context is active,
otherwise log the tapped word with weight 1.0, the category of the
context and method manual_click, then clear the context.  The index
argument of the source function is unused there and omitted here. -/
def handleManualSelect (now : ℕ) (word : String) (s : AppState) : AppState :=
  match s.suggestionCtx with
  | none => s
  | some ctx =>
    { addLog now word ctx.category 1 SelectionMethod.manual_click s with
        suggestionCtx := none }

/-- handleSkip from App.tsx: clear the context if one is active. -/
def handleSkip (s : AppState) : AppState :=
  match s.suggestionCtx with
  | some _ => { s with suggestionCtx := none }
  | none => s

/-- handleStartSession from App.tsx.  The environment is abstracted by
four booleans: whether the Web Speech API exists, whether constructing
the SpeechService throws, whether starting it throws, and whether the
Gemini connect call throws.  The source clears error and both
transcripts first; a recognizer construction or start failure is caught
locally and only nulls speechRef; only a connect failure reaches the
outer catch, which sets the user-visible error and leaves isRecording
false. -/
def handleStartSession (hasWebSpeech speechCtorFails speechStartFails connectFails : Bool)
    (s : AppState) : AppState :=
  let s1 := { s with error := none, finalTranscript := "", interimTranscript := "" }
  let speech1 : Bool := hasWebSpeech && !speechCtorFails
  if connectFails then
    { s1 with speechActive := speech1, error := some "Failed to start session." }
  else
    { s1 with speechActive := speech1 && !speechStartFails, isRecording := true }

/-- handleStopSession from App.tsx: tear down the services, stop
recording, and if a context is still active run the implicit split on
it and clear it. -/
def handleStopSession (now : ℕ) (s : AppState) : AppState :=
  let s1 := { s with isRecording := false, speechActive := false }
  match s1.suggestionCtx with
  | some ctx => { processImplicitSplit now ctx s1 with suggestionCtx := none }
  | none => s1

/-- playAudio from the GeminiService (src/unnamed/part_000): given the
output-clock reading and the decoded chunk duration, the chunk starts at
max(nextStartTime, currentTime) and the cursor advances by the duration.
Returns (scheduled start, new cursor). -/
def playAudio (currentTime duration cursor : ℚ) : ℚ × ℚ :=
  let start := max cursor currentTime
  (start, start + duration)

/-- Sequential playback of a list of chunks, each a pair of the clock
reading observed at its arrival and its duration; returns the list of
(start, duration) pairs actually scheduled and the final cursor. -/
def scheduleChunks (cursor : ℚ) : List (ℚ × ℚ) → List (ℚ × ℚ) × ℚ
  | [] => ([], cursor)
  | (t, d) :: rest =>
    let p := playAudio t d cursor
    let r := scheduleChunks p.2 rest
    ((p.1, d) :: r.1, r.2)

/-- The error callback App.tsx hands to the SpeechService: it only
writes a console warning, so the application state is untouched and in
particular no user-visible error is set. -/
def speechErrorCallback (_err : String) (s : AppState) : AppState := s

/-- The log entry produced for enumerated word p of context ctx by the
implicit split at time now. -/
def splitEntry (now : ℕ) (ctx : SuggestionContext) (p : ℕ × String) : WordLog :=
  ⟨p.2, ctx.category, splitWeight p.1, now, SelectionMethod.implicit_split⟩

/-- A suggestion context whose category is the empty string, as the
model may deliver (the category argument is an arbitrary string). -/
def ctxNoCat : SuggestionContext := ⟨["dog", "cat", "fox"], "", 0⟩

/-- A recording state holding ctxNoCat as the active context. -/
def sNoCat : AppState := ⟨some ctxNoCat, [], true, none, "", "", true⟩

/-- A recording state holding a context with category Animals. -/
def sAnimals : AppState :=
  ⟨some ⟨["dog", "cat", "fox"], "Animals", 0⟩, [], true, none, "", "", true⟩

theorem foldl_addLog_split (now : ℕ) (ctx : SuggestionContext)
    (l : List (ℕ × String)) (s : AppState) :
    l.foldl (fun st p =>
        addLog now p.2 ctx.category (splitWeight p.1) SelectionMethod.implicit_split st) s
      = { s with logs := s.logs ++ l.map (splitEntry now ctx) } := by
  induction l generalizing s with
  | nil => simp
  | cons a t ih =>
    simp only [List.foldl_cons, ih, List.map_cons]
    simp [addLog, splitEntry]

theorem processImplicitSplit_eq (now : ℕ) (ctx : SuggestionContext) (s : AppState) :
    processImplicitSplit now ctx s
      = { s with logs := s.logs ++ ctx.words.enum.map (splitEntry now ctx) } :=
  foldl_addLog_split now ctx ctx.words.enum s

theorem splitWeight_zero : splitWeight 0 = 0.5 := by
  norm_num [splitWeight, jsOrQ, implicitWeights]

theorem splitWeight_one : splitWeight 1 = 0.4 := by
  norm_num [splitWeight, jsOrQ, implicitWeights]

theorem splitWeight_of_two_le (i : ℕ) (hi : 2 ≤ i) : splitWeight i = 0.1 := by
  match i, hi with
  | 2, _ => norm_num [splitWeight, jsOrQ, implicitWeights]
  | (n + 3), _ => simp [splitWeight, jsOrQ, implicitWeights]

theorem enum_triple (w1 w2 w3 : String) :
    List.enum [w1, w2, w3] = [(0, w1), (1, w2), (2, w3)] := rfl

/-- C9: for a context with any number n of words, the implicit split
appends exactly n entries, one per word in original order, each tagged
implicit_split with the category of the context, and the weight at
index 0 is 0.5, at index 1 is 0.4, and at every index two or greater is
0.1. -/
theorem implicit_split_shape (now : ℕ) (ctx : SuggestionContext) (s : AppState) :
    (processImplicitSplit now ctx s).logs
        = s.logs ++ ctx.words.enum.map (splitEntry now ctx)
      ∧ (processImplicitSplit now ctx s).logs.length
        = s.logs.length + ctx.words.length
      ∧ splitWeight 0 = 0.5 ∧ splitWeight 1 = 0.4
      ∧ (∀ i, 2 ≤ i → splitWeight i = 0.1) := by
  refine ⟨?_, ?_, splitWeight_zero, splitWeight_one, splitWeight_of_two_le⟩
  · rw [processImplicitSplit_eq]
  · rw [processImplicitSplit_eq]
    simp [List.enum_length]

theorem implicit_split_shape_witness : 2 ≤ 5 ∧ splitWeight 5 = 0.1 :=
  ⟨by norm_num,
   (implicit_split_shape 0 ⟨[], "", 0⟩ ⟨none, [], false, none, "", "", false⟩).2.2.2.2
     5 (by norm_num)⟩

/-- C1: when a new suggestion set arrives while a previous context with
three words is active, exactly the three words of the previous set are
logged in order with weights 0.5, 0.4, 0.1, the category of the
previous context and method implicit_split, and the active context is
replaced by the new set. -/
theorem supersession_logs_previous_set (now : ℕ) (words : List String) (cat : String)
    (s : AppState) (prev : SuggestionContext) (w1 w2 w3 : String)
    (hctx : s.suggestionCtx = some prev) (hw : prev.words = [w1, w2, w3]) :
    (onSuggestions now words cat s).logs
        = s.logs ++ [⟨w1, prev.category, 0.5, now, SelectionMethod.implicit_split⟩,
                     ⟨w2, prev.category, 0.4, now, SelectionMethod.implicit_split⟩,
                     ⟨w3, prev.category, 0.1, now, SelectionMethod.implicit_split⟩]
      ∧ (onSuggestions now words cat s).suggestionCtx = some ⟨words, cat, now⟩ := by
  simp only [onSuggestions, hctx]
  refine ⟨?_, trivial⟩
  rw [processImplicitSplit_eq]
  simp only [hw, enum_triple, List.map_cons, List.map_nil, splitEntry,
    splitWeight_zero, splitWeight_one, splitWeight_of_two_le 2 (by norm_num)]

theorem supersession_logs_previous_set_witness :
    (onSuggestions 5 ["pen", "pencil", "brush"] "Tools" sAnimals).logs
        = sAnimals.logs
            ++ [⟨"dog", "Animals", 0.5, 5, SelectionMethod.implicit_split⟩,
                ⟨"cat", "Animals", 0.4, 5, SelectionMethod.implicit_split⟩,
                ⟨"fox", "Animals", 0.1, 5, SelectionMethod.implicit_split⟩]
      ∧ (onSuggestions 5 ["pen", "pencil", "brush"] "Tools" sAnimals).suggestionCtx
        = some ⟨["pen", "pencil", "brush"], "Tools", 5⟩ :=
  supersession_logs_previous_set 5 ["pen", "pencil", "brush"] "Tools" sAnimals
    ⟨["dog", "cat", "fox"], "Animals", 0⟩ "dog" "cat" "fox" rfl rfl

/-- C4: for every state, skip appends no log entry, clears the active
context, and changes no other field of the application state. -/
theorem skip_silent_frame (s : AppState) :
    handleSkip s = { s with suggestionCtx := none }
      ∧ (handleSkip s).logs = s.logs
      ∧ (handleSkip s).suggestionCtx = none := by
  obtain ⟨c, lg, r, e, f, i, sp⟩ := s
  cases c <;> simp [handleSkip]

/-- C2 counterexample: with an active context whose category is the
empty string, a voice confirmation of a word of that context logs the
entry with category General, not with the category of the context, so
the claim as stated fails. -/
theorem explicit_confirmation_category_cex :
    "dog" ∈ ctxNoCat.words
  ∧ sNoCat.suggestionCtx = some ctxNoCat
  ∧ (onConfirmedWord 1 "dog" sNoCat).logs
      ≠ sNoCat.logs
          ++ [⟨"dog", ctxNoCat.category, 1, 1, SelectionMethod.voice_confirmed⟩] := by
  refine ⟨by decide, rfl, ?_⟩
  decide

/-- C2 (amended): an explicit confirmation of a word of the active
context produces exactly one entry with that word, weight 1.0 and the
method of its channel, and clears the context; the category logged is
the category of the context, except that the voice channel substitutes
General when that category is the empty string. -/
theorem explicit_confirmation_logs (now : ℕ) (word : String) (s : AppState)
    (ctx : SuggestionContext) (hctx : s.suggestionCtx = some ctx)
    (_hmem : word ∈ ctx.words) :
    (ctx.category ≠ "" →
        (onConfirmedWord now word s).logs
          = s.logs ++ [⟨word, ctx.category, 1, now, SelectionMethod.voice_confirmed⟩])
  ∧ (ctx.category = "" →
        (onConfirmedWord now word s).logs
          = s.logs ++ [⟨word, "General", 1, now, SelectionMethod.voice_confirmed⟩])
  ∧ (onConfirmedWord now word s).suggestionCtx = none
  ∧ (handleManualSelect now word s).logs
      = s.logs ++ [⟨word, ctx.category, 1, now, SelectionMethod.manual_click⟩]
  ∧ (handleManualSelect now word s).suggestionCtx = none := by
  refine ⟨?_, ?_, ?_, ?_, ?_⟩ <;>
    simp [onConfirmedWord, handleManualSelect, addLog, jsOrStr, hctx]
  · intro h
    simp [h]
  · intro h
    simp [h]

theorem explicit_confirmation_logs_witness :
    (onConfirmedWord 3 "cat" sAnimals).logs
        = sAnimals.logs ++ [⟨"cat", "Animals", 1, 3, SelectionMethod.voice_confirmed⟩]
  ∧ (handleManualSelect 3 "cat" sAnimals).logs
        = sAnimals.logs ++ [⟨"cat", "Animals", 1, 3, SelectionMethod.manual_click⟩]
  ∧ (handleManualSelect 3 "cat" sAnimals).suggestionCtx = none :=
  ⟨(explicit_confirmation_logs 3 "cat" sAnimals ⟨["dog", "cat", "fox"], "Animals", 0⟩
      rfl (by decide)).1 (by decide),
   (explicit_confirmation_logs 3 "cat" sAnimals ⟨["dog", "cat", "fox"], "Animals", 0⟩
      rfl (by decide)).2.2.2.1,
   (explicit_confirmation_logs 3 "cat" sAnimals ⟨["dog", "cat", "fox"], "Animals", 0⟩
      rfl (by decide)).2.2.2.2⟩

/-- C3: stopping the session with a pending context appends exactly the
same log entries as an arrival supersession of that context at the same
instant (the implicit-split entries of the context) and clears the
context; stopping with no pending context appends nothing. -/
theorem stop_session_matches_supersession (now : ℕ) (ws : List String) (cat : String)
    (s : AppState) :
    (∀ c, s.suggestionCtx = some c →
        (handleStopSession now s).logs = (onSuggestions now ws cat s).logs
      ∧ (handleStopSession now s).logs = s.logs ++ c.words.enum.map (splitEntry now c)
      ∧ (handleStopSession now s).suggestionCtx = none)
  ∧ (s.suggestionCtx = none → (handleStopSession now s).logs = s.logs) := by
  constructor
  · intro c hc
    simp only [handleStopSession, onSuggestions, hc, processImplicitSplit_eq]
    simp
  · intro hc
    simp [handleStopSession, hc]

theorem stop_session_matches_supersession_witness :
    (handleStopSession 9 sAnimals).logs = (onSuggestions 9 [] "" sAnimals).logs
  ∧ (handleStopSession 9 sAnimals).suggestionCtx = none :=
  ⟨((stop_session_matches_supersession 9 [] "" sAnimals).1
      ⟨["dog", "cat", "fox"], "Animals", 0⟩ rfl).1,
   ((stop_session_matches_supersession 9 [] "" sAnimals).1
      ⟨["dog", "cat", "fox"], "Animals", 0⟩ rfl).2.2⟩

/-- C6: every operation of the application either leaves the logs list
unchanged or extends it at the end; no existing entry is rewritten or
removed. -/
theorem logs_append_only (now : ℕ) (ws : List String) (cat w txt e : String)
    (a b c d : Bool) (s : AppState) :
    (∃ t, (onSuggestions now ws cat s).logs = s.logs ++ t)
  ∧ (∃ t, (onConfirmedWord now w s).logs = s.logs ++ t)
  ∧ (∃ t, (handleManualSelect now w s).logs = s.logs ++ t)
  ∧ (handleSkip s).logs = s.logs
  ∧ (handleStartSession a b c d s).logs = s.logs
  ∧ (∃ t, (handleStopSession now s).logs = s.logs ++ t)
  ∧ (onRejectWord s).logs = s.logs
  ∧ (onTranscriptUpdate txt s).logs = s.logs
  ∧ (speechErrorCallback e s).logs = s.logs := by
  refine ⟨?_, ?_, ?_, ?_, ?_, ?_, ?_, ?_, ?_⟩
  · rcases hc : s.suggestionCtx with _ | c
    · exact ⟨[], by simp [onSuggestions, hc]⟩
    · exact ⟨c.words.enum.map (splitEntry now c),
        by simp [onSuggestions, hc, processImplicitSplit_eq]⟩
  · exact ⟨[⟨w, jsOrStr (s.suggestionCtx.map SuggestionContext.category) "General",
        1, now, SelectionMethod.voice_confirmed⟩],
      by simp [onConfirmedWord, addLog]⟩
  · rcases hc : s.suggestionCtx with _ | c
    · exact ⟨[], by simp [handleManualSelect, hc]⟩
    · exact ⟨[⟨w, c.category, 1, now, SelectionMethod.manual_click⟩],
        by simp [handleManualSelect, hc, addLog]⟩
  · rcases hc : s.suggestionCtx with _ | c <;> simp [handleSkip, hc]
  · rcases d <;> simp [handleStartSession]
  · rcases hc : s.suggestionCtx with _ | c
    · exact ⟨[], by simp [handleStopSession, hc]⟩
    · exact ⟨c.words.enum.map (splitEntry now c),
        by simp [handleStopSession, hc, processImplicitSplit_eq]⟩
  · rfl
  · rfl
  · rfl

/-- C7: a recognizer failure alone (API absent, construction failure, or
start failure) never blocks the session or surfaces an error: when the
connect call succeeds the session starts recording with no user-visible
error, the runtime error callback of the recognizer leaves the state
untouched, and hosted-model transcription keeps appending text. -/
theorem speech_fallback_session_starts (s s2 : AppState)
    (hasWebSpeech speechCtorFails speechStartFails : Bool) (txt e : String) :
    (handleStartSession hasWebSpeech speechCtorFails speechStartFails false s).isRecording = true
  ∧ (handleStartSession hasWebSpeech speechCtorFails speechStartFails false s).error = none
  ∧ speechErrorCallback e s = s
  ∧ (onTranscriptUpdate txt s2).finalTranscript = s2.finalTranscript ++ txt := by
  refine ⟨?_, ?_, rfl, rfl⟩ <;> simp [handleStartSession]

/-- C8: a voice confirmation with no active context still logs the word,
with category General, weight 1.0 and method voice_confirmed, and the
context stays clear. -/
theorem voice_confirm_without_context (now : ℕ) (word : String) (s : AppState)
    (h : s.suggestionCtx = none) :
    (onConfirmedWord now word s).logs
        = s.logs ++ [⟨word, "General", 1, now, SelectionMethod.voice_confirmed⟩]
      ∧ (onConfirmedWord now word s).suggestionCtx = none := by
  simp [onConfirmedWord, addLog, jsOrStr, h]

theorem voice_confirm_without_context_witness :
    (onConfirmedWord 4 "lamp" ⟨none, [], true, none, "", "", false⟩).logs
        = [⟨"lamp", "General", 1, 4, SelectionMethod.voice_confirmed⟩]
      ∧ (onConfirmedWord 4 "lamp" ⟨none, [], true, none, "", "", false⟩).suggestionCtx
        = none :=
  voice_confirm_without_context 4 "lamp" ⟨none, [], true, none, "", "", false⟩ rfl

theorem scheduleChunks_spec (chunks : List (ℚ × ℚ)) :
    ∀ c : ℚ, (∀ p ∈ chunks, 0 ≤ p.2) →
      c ≤ (scheduleChunks c chunks).2
    ∧ (∀ q ∈ (scheduleChunks c chunks).1, c ≤ q.1)
    ∧ List.Chain' (fun a b : ℚ × ℚ => a.1 + a.2 ≤ b.1) (scheduleChunks c chunks).1 := by
  induction chunks with
  | nil =>
    intro c h
    simp [scheduleChunks]
  | cons hd tl ih =>
    intro c h
    obtain ⟨t, d⟩ := hd
    have hd0 : 0 ≤ d := h (t, d) (List.mem_cons_self _ _)
    have htl : ∀ p ∈ tl, 0 ≤ p.2 := fun p hp => h p (List.mem_cons_of_mem _ hp)
    have hstart : c ≤ max c t := le_max_left _ _
    have hcur : c ≤ max c t + d := by linarith
    obtain ⟨ih1, ih2, ih3⟩ := ih (max c t + d) htl
    simp only [scheduleChunks, playAudio]
    refine ⟨le_trans hcur ih1, ?_, ?_⟩
    · intro q hq
      rcases List.mem_cons.mp hq with rfl | h2
      · exact hstart
      · exact le_trans hcur (ih2 q h2)
    · rw [List.chain'_cons']
      refine ⟨?_, ih3⟩
      intro y hy
      exact ih2 y (List.mem_of_mem_head? hy)

/-- C5: with non-negative chunk durations, the playback cursor never
decreases over any sequence of playAudio calls, consecutively scheduled
chunks do not overlap, and each call starts its chunk at the maximum of
the cursor and the clock and advances the cursor by exactly the chunk
duration. -/
theorem playback_cursor_monotone (chunks : List (ℚ × ℚ)) (c : ℚ)
    (h : ∀ p ∈ chunks, 0 ≤ p.2) :
    c ≤ (scheduleChunks c chunks).2
  ∧ List.Chain' (fun a b : ℚ × ℚ => a.1 + a.2 ≤ b.1) (scheduleChunks c chunks).1
  ∧ (∀ t d cur : ℚ, (playAudio t d cur).1 = max cur t
      ∧ (playAudio t d cur).2 = (playAudio t d cur).1 + d
      ∧ (0 ≤ d → cur ≤ (playAudio t d cur).2)) := by
  refine ⟨(scheduleChunks_spec chunks c h).1, (scheduleChunks_spec chunks c h).2.2, ?_⟩
  intro t d cur
  refine ⟨rfl, rfl, fun hd => ?_⟩
  simp only [playAudio]
  have := le_max_left cur t
  linarith

theorem playback_cursor_monotone_witness :
    (0 : ℚ) ≤ (scheduleChunks 0 [((0 : ℚ), (2 : ℚ)), (1, 3)]).2
  ∧ (0 : ℚ) ≤ (playAudio 5 2 0).2 :=
  ⟨(playback_cursor_monotone [((0 : ℚ), (2 : ℚ)), (1, 3)] 0 (by decide)).1,
   ((playback_cursor_monotone [] 0 (by simp)).2.2 5 2 0).2.2 (by norm_num)⟩
